import Mathlib

set_option maxHeartbeats 1000000
set_option maxRecDepth 4000

/-!
Shallow embedding of the record-extraction and classification pipeline of
`get_papers_list` (files `pubmed.py`, `cli.py`, `get_papers_list.py`).

The network layer is out of scope; the embedding starts from the parsed XML
tree that `etree.fromstring` hands to `fetch_paper_details`, modelled by
`XmlNode` (tag, optional text content, children — the only parts the code
reads).  Python materialises its `set` objects into sequences with an
unspecified, hash-seed-dependent iteration order; every place the source does
so (`list(affiliations)`, `", ".join(set(email_addresses))`) is modelled by an
explicit order-choice parameter `π` constrained only by `ValidOrd`: on a
duplicate-free list it returns some permutation of it.
-/

/-- An XML element as read by the extractor: tag, text content (`none` models
a Python `None` text, i.e. an element with no text), and child elements. -/
inductive XmlNode : Type where
  | elem : String → Option String → List XmlNode → XmlNode

def XmlNode.tag : XmlNode → String
  | .elem t _ _ => t

def XmlNode.text : XmlNode → Option String
  | .elem _ x _ => x

def XmlNode.children : XmlNode → List XmlNode
  | .elem _ _ cs => cs

mutual

/-- Preorder (document-order) traversal of a subtree: the node itself, then
the subtrees of its children. -/
def preorder : XmlNode → List XmlNode
  | .elem t x cs => .elem t x cs :: preorderList cs

/-- Preorder traversal of a list of sibling subtrees, left to right. -/
def preorderList : List XmlNode → List XmlNode
  | [] => []
  | c :: cs => preorder c ++ preorderList cs

end

/-- All proper descendants of a node in document order. -/
def descendants (n : XmlNode) : List XmlNode :=
  preorderList n.children

/-- Model of lxml `findall(".//T")`: all descendants tagged `t`, document order. -/
def findall (n : XmlNode) (t : String) : List XmlNode :=
  (descendants n).filter (fun e => e.tag == t)

/-- Model of lxml `find(".//T")`: first descendant tagged `t`, or none. -/
def findFirst (n : XmlNode) (t : String) : Option XmlNode :=
  (findall n t).head?

/-- Direct children of `n` tagged `t`, in order. -/
def childrenTagged (n : XmlNode) (t : String) : List XmlNode :=
  n.children.filter (fun e => e.tag == t)

/-- Model of lxml `find("T")` (direct-child lookup). -/
def findChild (n : XmlNode) (t : String) : Option XmlNode :=
  (childrenTagged n t).head?

/-- Model of lxml `findtext("T")`: `none` when no such child exists (Python
`None`), otherwise the child's text, with a missing text read as `""`. -/
def findtext (n : XmlNode) (t : String) : Option String :=
  (findChild n t).map (fun e => e.text.getD "")

/-- Model of lxml `find(".//T1/T2")`: first child tagged `t2` of a descendant
tagged `t1`, stepwise in document order. -/
def findDescChild (n : XmlNode) (t1 t2 : String) : Option XmlNode :=
  ((findall n t1).flatMap (fun e => childrenTagged e t2)).head?

/-- Does `l` start with `p`? -/
def startsWith : List Char → List Char → Bool
  | _, [] => true
  | [], _ :: _ => false
  | a :: as, b :: bs => a == b && startsWith as bs

/-- Does `l` contain `nd` as a contiguous run?  Models the Python substring
test `nd in l`. -/
def hasSub : List Char → List Char → Bool
  | [], nd => nd.isEmpty
  | a :: as, nd => startsWith (a :: as) nd || hasSub as nd

/-- Python `sub in s` on strings. -/
def strContains (s sub : String) : Bool := hasSub s.toList sub.toList

/-- The fixed keyword list of `detect_non_academic_authors`. -/
def pharma_keywords : List String :=
  ["Inc", "Ltd", "Corporation", "Pharma", "Biotech", "LLC", "Company"]

/-- `any(keyword in affiliation for keyword in pharma_keywords)`. -/
def isCompanyAff (aff : String) : Bool :=
  pharma_keywords.any (fun k => strContains aff k)

/-- Character class `[A-Za-z0-9._%+-]` (local part of the email regex). -/
def isLocalChar (c : Char) : Bool :=
  c.isAlpha || c.isDigit || c == '.' || c == '_' || c == '%' || c == '+' || c == '-'

/-- Character class `[A-Za-z0-9.-]` (domain part of the email regex). -/
def isDomainChar (c : Char) : Bool :=
  c.isAlpha || c.isDigit || c == '.' || c == '-'

/-- Backtracking step of the email regex on the maximal `[A-Za-z0-9.-]+` run:
find the rightmost `.` that is followed by at least two letters; return the
part before the dot, the maximal letter run after it, and the leftover. -/
def findTldSplit : List Char → Option (List Char × List Char × List Char)
  | [] => none
  | c :: cs =>
    match findTldSplit cs with
    | some (pre, tld, rest) => some (c :: pre, tld, rest)
    | none =>
      if c = '.' then
        if 2 ≤ (cs.takeWhile Char.isAlpha).length then
          some ([], cs.takeWhile Char.isAlpha, cs.dropWhile Char.isAlpha)
        else none
      else none

/-- One attempted match of `[A-Za-z0-9._%+-]+@[A-Za-z0-9.-]+\.[A-Za-z]{2,}`
anchored at the head of `s`, with Python `re` greedy/backtracking semantics;
returns the matched run and the remainder of the input. -/
def matchEmailAt (s : List Char) : Option (List Char × List Char) :=
  if (s.takeWhile isLocalChar).isEmpty then none else
  match s.dropWhile isLocalChar with
  | '@' :: r2 =>
    match findTldSplit (r2.takeWhile isDomainChar) with
    | some (pre, tld, rest) =>
      if pre.isEmpty then none
      else some (s.takeWhile isLocalChar ++ '@' :: (pre ++ '.' :: tld),
                 rest ++ r2.dropWhile isDomainChar)
    | none => none
  | _ => none

/-- Scanning loop of `re.findall`: try every start position left to right,
emit non-overlapping matches.  Each successful match consumes at least one
character, so fuel equal to the input length never runs out. -/
def findAllAux : Nat → List Char → List (List Char)
  | 0, _ => []
  | _ + 1, [] => []
  | fuel + 1, c :: cs =>
    match matchEmailAt (c :: cs) with
    | some (m, rest) => m :: findAllAux fuel rest
    | none => findAllAux fuel cs

/-- `re.findall(r"[A-Za-z0-9._%+-]+@[A-Za-z0-9.-]+\.[A-Za-z]{2,}", s)`. -/
def findEmails (s : String) : List String :=
  (findAllAux s.toList.length s.toList).map List.asString

/-- One insertion into a Python set, tracked in first-seen order. -/
def pyInsert (s : List String) (a : String) : List String :=
  if a ∈ s then s else s ++ [a]

/-- Contents of `set(l)` as the first-seen-ordered duplicate-free list. -/
def pySetList (l : List String) : List String :=
  l.foldl pyInsert []

/-- `ValidOrd π` says `π` is an admissible materialisation of a Python set:
on a duplicate-free list it returns some permutation of it.  Python only
guarantees the contents of `list(s)` / iteration over a set, not the order. -/
def ValidOrd (π : List String → List String) : Prop :=
  ∀ l : List String, l.Nodup → (π l).Perm l

/-- The identity order choice (first-seen order). -/
def ordId : List String → List String := fun l => l

/-- The reversed order choice (also an admissible set order). -/
def ordRev : List String → List String := fun l => l.reverse

/-- The dict built per article by `fetch_paper_details`. -/
structure Paper : Type where
  pubmedID : Option String
  title : Option String
  pubDate : Option String
  authors : List String
  affiliations : List String
deriving DecidableEq

/-- The dict returned by `detect_non_academic_authors`. -/
structure Row : Type where
  pubmedID : Option String
  title : Option String
  pubDate : Option String
  nonAcademicAuthors : String
  companyAffiliations : String
  correspondingEmails : String
deriving DecidableEq

/-- `f"{forename} {lastname}" if forename and lastname else None` applied to
`author.findtext("ForeName")` / `author.findtext("LastName")`: a name is
produced only when both children exist and both texts are non-empty (Python
truthiness). -/
def authorFullName (au : XmlNode) : Option String :=
  match findtext au "ForeName", findtext au "LastName" with
  | some f, some l => if f = "" ∨ l = "" then none else some (f ++ " " ++ l)
  | _, _ => none

/-- The affiliation part of the author loop body: look up
`.//AffiliationInfo/Affiliation`; if found and its text is truthy, add it to
the affiliation set. -/
def affInsert (affs : List String) (au : XmlNode) : List String :=
  match findDescChild au "AffiliationInfo" "Affiliation" with
  | some e =>
    match e.text with
    | some a => if a = "" then affs else pyInsert affs a
    | none => affs
  | none => affs

/-- One iteration of the `for author in article.findall(".//Author")` loop,
carrying the `authors` list and the affiliation set (in insertion order). -/
def authorStep (acc : List String × List String) (au : XmlNode) :
    List String × List String :=
  (match authorFullName au with
   | some fn => acc.1 ++ [fn]
   | none => acc.1,
   affInsert acc.2 au)

/-- The per-article body of `fetch_paper_details`, building one paper dict;
`π` materialises the affiliation set into `list(affiliations)`. -/
def parseArticle (π : List String → List String) (article : XmlNode) : Paper :=
  let acc := (findall article "Author").foldl authorStep ([], [])
  { pubmedID :=
      match findFirst article "PMID" with
      | some e => e.text
      | none => some ""
    title :=
      match findFirst article "ArticleTitle" with
      | some e => e.text
      | none => some ""
    pubDate :=
      match findDescChild article "PubDate" "Year" with
      | some e => e.text
      | none => some ""
    authors := acc.1
    affiliations := π acc.2 }

/-- The parsing stage of `fetch_paper_details`: one paper per
`.//PubmedArticle` element, in document order. -/
def extractRecords (π : List String → List String) (root : XmlNode) : List Paper :=
  (findall root "PubmedArticle").map (parseArticle π)

/-- Outcome of `etree.fromstring` on the raw payload: either the payload is
not well-formed XML (the call raises before any article is looked at), or it
yields a root element. -/
inductive XmlParse : Type where
  | malformed
  | wellFormed (root : XmlNode)

/-- `fetch_paper_details` after the HTTP call: `etree.fromstring` either
raises (modelled as `.error ()`) or returns a root from which the article
loop extracts every record. -/
def fetch_paper_details (π : List String → List String) :
    XmlParse → Except Unit (List Paper)
  | .malformed => .error ()
  | .wellFormed root => .ok (extractRecords π root)

/-- `detect_non_academic_authors`: filter company affiliations by the keyword
test, collect regex matches over every affiliation, and assemble the row;
`π` materialises `set(email_addresses)` for the joined display form. -/
def detect_non_academic_authors (π : List String → List String) (p : Paper) : Row :=
  let company_affiliations := p.affiliations.filter isCompanyAff
  let email_addresses := p.affiliations.flatMap findEmails
  { pubmedID := p.pubmedID
    title := p.title
    pubDate := p.pubDate
    nonAcademicAuthors := "N/A"
    companyAffiliations := String.intercalate "; " company_affiliations
    correspondingEmails := String.intercalate ", " (π (pySetList email_addresses)) }

/-- The report-assembly loop shared verbatim by `cli.py:main` and
`get_papers_list.py:main`: classify every paper and keep a row exactly when
its joined company-affiliation string is truthy (non-empty). -/
def mainAssemble (π : List String → List String) (papers : List Paper) : List Row :=
  (papers.map (detect_non_academic_authors π)).filter
    (fun r => !r.companyAffiliations.isEmpty)

/-- Modelled from the spec (§4.3): the assembly contract the spec describes,
with an explicit caller-supplied `keepOnlyCompanyAffiliated` flag.  Used only
to compare the code's hard-coded behaviour against the spec's contract. -/
def assembleSpec (π : List String → List String) (keepOnlyCompanyAffiliated : Bool)
    (papers : List Paper) : List Row :=
  let rows := papers.map (detect_non_academic_authors π)
  if keepOnlyCompanyAffiliated then
    rows.filter (fun r => !r.companyAffiliations.isEmpty)
  else rows

/-- Extraction followed by classification of every record — the composite
whose determinism claim C1 is about. -/
def pipelineRows (π : List String → List String) (root : XmlNode) : List Row :=
  (extractRecords π root).map (detect_non_academic_authors π)

/-- A concrete AffiliationInfo/Affiliation pair. -/
def affNode (s : String) : XmlNode :=
  .elem "AffiliationInfo" none [.elem "Affiliation" (some s) []]

/-- A concrete Author element with both names and one affiliation block. -/
def authorNode (fore last : String) (aff : XmlNode) : XmlNode :=
  .elem "Author" none
    [.elem "LastName" (some last) [], .elem "ForeName" (some fore) [], aff]

/-- A document with one article carrying two distinct company affiliations:
the input on which the set-materialisation order becomes observable. -/
def docC1 : XmlNode :=
  .elem "PubmedArticleSet" none
    [.elem "PubmedArticle" none
      [.elem "PMID" (some "1") [],
       .elem "ArticleTitle" (some "T") [],
       .elem "PubDate" none [.elem "Year" (some "2020") []],
       authorNode "A" "B" (affNode "A Inc"),
       authorNode "C" "D" (affNode "B Ltd")]]

/-- An article with no PMID, ArticleTitle, or PubDate/Year element at all. -/
def artC5 : XmlNode :=
  .elem "PubmedArticle" none [authorNode "A" "B" (affNode "A Inc")]

/-- An article whose two authors carry the identical affiliation string. -/
def artC6 : XmlNode :=
  .elem "PubmedArticle" none
    [authorNode "A" "B" (affNode "Acme Inc"),
     authorNode "C" "D" (affNode "Acme Inc")]

/-- An author whose LastName child is present but empty (lxml reads its text
as Python None and `findtext` turns that into `""`) and whose ForeName is
present and non-empty. -/
def authorC7 : XmlNode :=
  .elem "Author" none [.elem "LastName" none [], .elem "ForeName" (some "J") []]

/-- An article containing only `authorC7`. -/
def artC7 : XmlNode := .elem "PubmedArticle" none [authorC7]

/-- A PMID element that is present but has no text content. -/
def pmidC10 : XmlNode := .elem "PMID" none []

/-- An ArticleTitle element that is present but has no text content. -/
def titleC10 : XmlNode := .elem "ArticleTitle" none []

/-- An article with empty-text PMID and ArticleTitle and no PubDate at all. -/
def artC10 : XmlNode := .elem "PubmedArticle" none [pmidC10, titleC10]

/-- A paper with a single academic affiliation (no keyword matches). -/
def pUniv : Paper :=
  ⟨some "9", some "S", some "2021", ["A B"], ["Dept. of Biology, State University"]⟩

/-- A paper with a single company affiliation containing an email address. -/
def pC4 : Paper :=
  ⟨some "1", some "T", some "2020", [],
   ["Acme Pharma Inc, contact: j.doe@acme-pharma.com"]⟩

/-- A degenerate paper: no authors, no affiliations. -/
def pEmpty : Paper := ⟨some "1", some "T", some "2020", [], []⟩

/-! ### Helper lemmas -/

theorem ordId_valid : ValidOrd ordId := fun l _ => List.Perm.refl l

theorem ordRev_valid : ValidOrd ordRev := fun l _ => List.reverse_perm l

theorem validOrd_nil {π : List String → List String} (hπ : ValidOrd π) : π [] = [] :=
  (hπ [] List.nodup_nil).eq_nil

theorem startsWith_iff : ∀ (l p : List Char), startsWith l p = true ↔ ∃ s, l = p ++ s
  | l, [] => by simp [startsWith]
  | [], b :: bs => by simp [startsWith]
  | a :: as, b :: bs => by
    simp only [startsWith, Bool.and_eq_true, beq_iff_eq]
    constructor
    · rintro ⟨rfl, h⟩
      obtain ⟨s, rfl⟩ := (startsWith_iff as bs).1 h
      exact ⟨s, rfl⟩
    · rintro ⟨s, h⟩
      injection h with h1 h2
      exact ⟨h1, (startsWith_iff as bs).2 ⟨s, h2⟩⟩

theorem hasSub_iff : ∀ (l nd : List Char), hasSub l nd = true ↔ ∃ p s, l = p ++ nd ++ s
  | [], nd => by
    simp only [hasSub, List.isEmpty_iff]
    constructor
    · rintro rfl; exact ⟨[], [], rfl⟩
    · rintro ⟨p, s, h⟩
      exact (List.append_eq_nil.1 (List.append_eq_nil.1 h.symm).1).2
  | a :: as, nd => by
    simp only [hasSub, Bool.or_eq_true]
    rw [startsWith_iff, hasSub_iff as nd]
    constructor
    · rintro (⟨s, h⟩ | ⟨p, s, h⟩)
      · exact ⟨[], s, by simpa using h⟩
      · exact ⟨a :: p, s, by simp [h]⟩
    · rintro ⟨p, s, h⟩
      cases p with
      | nil => exact Or.inl ⟨s, by simpa using h⟩
      | cons x xs =>
        injection h with h1 h2
        exact Or.inr ⟨xs, s, h2⟩

theorem isCompanyAff_iff (a : String) :
    isCompanyAff a = true
      ↔ ∃ k ∈ pharma_keywords, ∃ p s : List Char, a.toList = p ++ k.toList ++ s := by
  simp only [isCompanyAff, List.any_eq_true, strContains, hasSub_iff]

theorem mem_pyInsert (s : List String) (a x : String) :
    x ∈ pyInsert s a ↔ x ∈ s ∨ x = a := by
  unfold pyInsert
  split
  · rename_i h
    constructor
    · exact Or.inl
    · rintro (hx | rfl)
      · exact hx
      · exact h
  · simp [List.mem_append]

theorem nodup_pyInsert (s : List String) (a : String) (h : s.Nodup) :
    (pyInsert s a).Nodup := by
  unfold pyInsert
  split
  · exact h
  · rename_i hna
    simp [List.nodup_append, h, hna]

theorem all_pyInsert {P : String → Prop} (s : List String) (a : String)
    (hs : ∀ x ∈ s, P x) (ha : P a) : ∀ x ∈ pyInsert s a, P x := by
  intro x hx
  rcases (mem_pyInsert s a x).1 hx with h | rfl
  · exact hs x h
  · exact ha

theorem foldl_pyInsert_nodup :
    ∀ (l acc : List String), acc.Nodup → (l.foldl pyInsert acc).Nodup
  | [], _, h => h
  | a :: l, acc, h => foldl_pyInsert_nodup l (pyInsert acc a) (nodup_pyInsert acc a h)

theorem mem_foldl_pyInsert :
    ∀ (l acc : List String) (x : String), x ∈ l.foldl pyInsert acc ↔ x ∈ acc ∨ x ∈ l
  | [], acc, x => by simp
  | a :: l, acc, x => by
    simp only [List.foldl_cons, mem_foldl_pyInsert l (pyInsert acc a) x,
      mem_pyInsert, List.mem_cons]
    tauto

theorem pySetList_nodup (l : List String) : (pySetList l).Nodup :=
  foldl_pyInsert_nodup l [] List.nodup_nil

theorem mem_pySetList (l : List String) (x : String) : x ∈ pySetList l ↔ x ∈ l := by
  simp [pySetList, mem_foldl_pyInsert]

theorem affInsert_inv (F : List String) (au : XmlNode)
    (h1 : F.Nodup) (h2 : ∀ x ∈ F, x ≠ "") :
    (affInsert F au).Nodup ∧ ∀ x ∈ affInsert F au, x ≠ "" := by
  unfold affInsert
  split
  · split
    · split
      · exact ⟨h1, h2⟩
      · rename_i hne
        exact ⟨nodup_pyInsert F _ h1, all_pyInsert F _ h2 hne⟩
    · exact ⟨h1, h2⟩
  · exact ⟨h1, h2⟩

theorem foldl_affInsert_inv :
    ∀ (l : List XmlNode) (F : List String),
      F.Nodup → (∀ x ∈ F, x ≠ "") →
      (l.foldl affInsert F).Nodup ∧ ∀ x ∈ l.foldl affInsert F, x ≠ ""
  | [], _, h1, h2 => ⟨h1, h2⟩
  | au :: l, F, h1, h2 => by
    have h := affInsert_inv F au h1 h2
    exact foldl_affInsert_inv l (affInsert F au) h.1 h.2

theorem mem_affInsert (F : List String) (au : XmlNode) (x : String) :
    x ∈ affInsert F au
      ↔ x ∈ F ∨ (¬x = "" ∧ ∃ e, findDescChild au "AffiliationInfo" "Affiliation" = some e
          ∧ e.text = some x) := by
  unfold affInsert
  split
  · rename_i e heq
    split
    · rename_i a heq2
      split
      · rename_i ha
        constructor
        · exact Or.inl
        · rintro (hx | ⟨hne, e2, he2, ht⟩)
          · exact hx
          · rw [heq] at he2
            injection he2 with he3
            subst he3
            rw [heq2] at ht
            injection ht with ht2
            subst ht2
            exact absurd ha hne
      · rename_i ha
        rw [mem_pyInsert]
        constructor
        · rintro (hx | rfl)
          · exact Or.inl hx
          · exact Or.inr ⟨ha, e, heq, heq2⟩
        · rintro (hx | ⟨hne, e2, he2, ht⟩)
          · exact Or.inl hx
          · rw [heq] at he2
            injection he2 with he3
            subst he3
            rw [heq2] at ht
            injection ht with ht2
            exact Or.inr ht2.symm
    · rename_i heq2
      constructor
      · exact Or.inl
      · rintro (hx | ⟨hne, e2, he2, ht⟩)
        · exact hx
        · rw [heq] at he2
          injection he2 with he3
          subst he3
          rw [heq2] at ht
          exact absurd ht (by simp)
  · rename_i heq
    constructor
    · exact Or.inl
    · rintro (hx | ⟨hne, e2, he2, ht⟩)
      · exact hx
      · rw [heq] at he2
        exact absurd he2 (by simp)

theorem mem_foldl_affInsert :
    ∀ (l : List XmlNode) (F : List String) (x : String),
      x ∈ l.foldl affInsert F
        ↔ x ∈ F ∨ (¬x = "" ∧ ∃ au ∈ l,
            ∃ e, findDescChild au "AffiliationInfo" "Affiliation" = some e
              ∧ e.text = some x)
  | [], F, x => by simp
  | au :: l, F, x => by
    rw [List.foldl_cons, mem_foldl_affInsert l (affInsert F au) x, mem_affInsert]
    simp only [List.mem_cons]
    constructor
    · rintro ((hx | ⟨hne, e, he, ht⟩) | ⟨hne, a2, ha2, e, he, ht⟩)
      · exact Or.inl hx
      · exact Or.inr ⟨hne, au, Or.inl rfl, e, he, ht⟩
      · exact Or.inr ⟨hne, a2, Or.inr ha2, e, he, ht⟩
    · rintro (hx | ⟨hne, a2, (rfl | ha2), e, he, ht⟩)
      · exact Or.inl (Or.inl hx)
      · exact Or.inl (Or.inr ⟨hne, e, he, ht⟩)
      · exact Or.inr ⟨hne, a2, ha2, e, he, ht⟩

theorem foldl_authorStep :
    ∀ (l : List XmlNode) (A F : List String),
      l.foldl authorStep (A, F)
        = (A ++ l.filterMap authorFullName, l.foldl affInsert F)
  | [], A, F => by simp
  | au :: l, A, F => by
    cases h : authorFullName au with
    | none =>
      rw [List.foldl_cons, List.foldl_cons,
        show authorStep (A, F) au = (A, affInsert F au) from by simp [authorStep, h],
        foldl_authorStep l A (affInsert F au), List.filterMap_cons_none h]
    | some fn =>
      rw [List.foldl_cons, List.foldl_cons,
        show authorStep (A, F) au = (A ++ [fn], affInsert F au) from by
          simp [authorStep, h],
        foldl_authorStep l (A ++ [fn]) (affInsert F au), List.filterMap_cons_some h]
      simp

theorem parseArticle_authors (π : List String → List String) (art : XmlNode) :
    (parseArticle π art).authors = (findall art "Author").filterMap authorFullName := by
  simp [parseArticle, foldl_authorStep]

theorem parseArticle_affiliations (π : List String → List String) (art : XmlNode) :
    (parseArticle π art).affiliations = π ((findall art "Author").foldl affInsert []) := by
  simp [parseArticle, foldl_authorStep]

theorem findTldSplit_sound :
    ∀ (l pre tld rest : List Char),
      findTldSplit l = some (pre, tld, rest) →
      l = pre ++ '.' :: (tld ++ rest) ∧ 2 ≤ tld.length ∧ ∀ c ∈ tld, c.isAlpha = true
  | [], pre, tld, rest => by simp [findTldSplit]
  | c :: cs, pre, tld, rest => by
    intro h
    unfold findTldSplit at h
    split at h
    · rename_i p t r heq
      injection h with h2
      injection h2 with h3 h4
      injection h4 with h5 h6
      subst h3 h5 h6
      obtain ⟨ih1, ih2, ih3⟩ := findTldSplit_sound cs p t r heq
      exact ⟨by rw [List.cons_append, ← ih1], ih2, ih3⟩
    · split at h
      · rename_i hc
        split at h
        · rename_i hlen
          injection h with h2
          cases h2
          refine ⟨?_, hlen, fun x hx => List.mem_takeWhile_imp hx⟩
          subst hc
          rw [List.nil_append, List.takeWhile_append_dropWhile]
        · exact absurd h (by simp)
      · exact absurd h (by simp)

theorem matchEmailAt_shape
    {s m rest : List Char} (h : matchEmailAt s = some (m, rest)) :
    ∃ loc pre tld : List Char,
      m = loc ++ '@' :: (pre ++ '.' :: tld) ∧ loc ≠ [] ∧ pre ≠ []
      ∧ (∀ c ∈ loc, isLocalChar c = true) ∧ (∀ c ∈ pre, isDomainChar c = true)
      ∧ 2 ≤ tld.length ∧ (∀ c ∈ tld, c.isAlpha = true) := by
  unfold matchEmailAt at h
  split at h
  · exact absurd h (by simp)
  · rename_i hne
    split at h
    · rename_i r2 heq2
      split at h
      · rename_i pre tld restd heq3
        split at h
        · exact absurd h (by simp)
        · rename_i hpre
          injection h with h2
          injection h2 with h3 h4
          obtain ⟨hdom, hlen, htld⟩ := findTldSplit_sound _ _ _ _ heq3
          refine ⟨s.takeWhile isLocalChar, pre, tld, h3.symm, ?_, ?_, ?_, ?_, hlen, htld⟩
          · intro hnil
            exact hne (by simp [hnil])
          · intro hnil
            exact hpre (by simp [hnil])
          · exact fun c hc => List.mem_takeWhile_imp hc
          · intro c hc
            have : c ∈ r2.takeWhile isDomainChar := by
              rw [hdom]
              exact List.mem_append_left _ hc
            exact List.mem_takeWhile_imp this
      · exact absurd h (by simp)
    · exact absurd h (by simp)

theorem matchEmailAt_at
    {s m rest : List Char} (h : matchEmailAt s = some (m, rest)) : '@' ∈ s := by
  unfold matchEmailAt at h
  split at h
  · exact absurd h (by simp)
  · split at h
    · rename_i r2 heq2
      have hsub : (s.dropWhile isLocalChar).Sublist s := List.dropWhile_sublist _
      apply hsub.subset
      rw [heq2]
      exact List.mem_cons_self _ _
    · exact absurd h (by simp)

theorem matchEmailAt_length
    {s m rest : List Char} (h : matchEmailAt s = some (m, rest)) :
    rest.length < s.length := by
  unfold matchEmailAt at h
  split at h
  · exact absurd h (by simp)
  · split at h
    · rename_i r2 heq2
      split at h
      · rename_i pre tld restd heq3
        split at h
        · exact absurd h (by simp)
        · injection h with h2
          injection h2 with h3 h4
          obtain ⟨hdom, hlen, _⟩ := findTldSplit_sound _ _ _ _ heq3
          have e1 : s.length
              = (s.takeWhile isLocalChar).length + (s.dropWhile isLocalChar).length := by
            conv_lhs => rw [← List.takeWhile_append_dropWhile isLocalChar s]
            rw [List.length_append]
          have e2 : (s.dropWhile isLocalChar).length = 1 + r2.length := by
            rw [heq2]
            simp [Nat.add_comm]
          have e3 : r2.length
              = (r2.takeWhile isDomainChar).length + (r2.dropWhile isDomainChar).length := by
            conv_lhs => rw [← List.takeWhile_append_dropWhile isDomainChar r2]
            rw [List.length_append]
          have e4 : (r2.takeWhile isDomainChar).length
              = pre.length + 1 + (tld.length + restd.length) := by
            rw [hdom]
            simp [List.length_append]
            omega
          rw [← h4]
          rw [List.length_append]
          omega
      · exact absurd h (by simp)
    · exact absurd h (by simp)

theorem findAllAux_nil : ∀ fuel : Nat, findAllAux fuel [] = []
  | 0 => rfl
  | _ + 1 => rfl

theorem findAllAux_fuel :
    ∀ (f1 : Nat) (f2 : Nat) (s : List Char), s.length ≤ f1 → s.length ≤ f2 →
      findAllAux f1 s = findAllAux f2 s
  | f1, f2, [], _, _ => (findAllAux_nil f1).trans (findAllAux_nil f2).symm
  | 0, _, c :: cs, h1, _ => absurd h1 (by simp)
  | _ + 1, 0, c :: cs, _, h2 => absurd h2 (by simp)
  | f1 + 1, f2 + 1, c :: cs, h1, h2 => by
    show findAllAux (f1 + 1) (c :: cs) = findAllAux (f2 + 1) (c :: cs)
    unfold findAllAux
    split
    · rename_i m rest heq
      have hlt := matchEmailAt_length heq
      simp only [List.length_cons] at h1 h2 hlt
      rw [findAllAux_fuel f1 f2 rest (by omega) (by omega)]
    · simp only [List.length_cons] at h1 h2
      rw [findAllAux_fuel f1 f2 cs (by omega) (by omega)]

theorem findAllAux_no_at :
    ∀ (fuel : Nat) (s : List Char), '@' ∉ s → findAllAux fuel s = []
  | 0, _, _ => rfl
  | _ + 1, [], _ => rfl
  | fuel + 1, c :: cs, h => by
    unfold findAllAux
    split
    · rename_i m rest heq
      exact absurd (matchEmailAt_at heq) h
    · exact findAllAux_no_at fuel cs (fun hc => h (List.mem_cons_of_mem c hc))

theorem mem_findAllAux :
    ∀ (fuel : Nat) (s m : List Char), m ∈ findAllAux fuel s →
      ∃ s2 rest : List Char, matchEmailAt s2 = some (m, rest)
  | 0, s, m, h => absurd h (by simp [findAllAux])
  | _ + 1, [], m, h => absurd h (by simp [findAllAux])
  | fuel + 1, c :: cs, m, h => by
    unfold findAllAux at h
    split at h
    · rename_i m0 rest heq
      rcases List.mem_cons.1 h with rfl | hmem
      · exact ⟨c :: cs, rest, heq⟩
      · exact mem_findAllAux fuel rest m hmem
    · exact mem_findAllAux fuel cs m h

theorem findEmails_no_at (a : String) (h : ∀ c ∈ a.toList, c ≠ '@') :
    findEmails a = [] := by
  unfold findEmails
  rw [findAllAux_no_at _ _ (fun hc => h _ hc rfl)]
  rfl

theorem findEmails_shape (a e : String) (he : e ∈ findEmails a) :
    ∃ loc pre tld : List Char,
      e.toList = loc ++ '@' :: (pre ++ '.' :: tld) ∧ loc ≠ [] ∧ pre ≠ []
      ∧ (∀ c ∈ loc, isLocalChar c = true) ∧ (∀ c ∈ pre, isDomainChar c = true)
      ∧ 2 ≤ tld.length ∧ (∀ c ∈ tld, c.isAlpha = true) := by
  unfold findEmails at he
  rcases List.mem_map.1 he with ⟨m, hm, rfl⟩
  obtain ⟨s2, rest, hmatch⟩ := mem_findAllAux _ _ _ hm
  obtain ⟨loc, pre, tld, hshape, hrest⟩ := matchEmailAt_shape hmatch
  exact ⟨loc, pre, tld, by rw [List.toList_asString, hshape], hrest⟩

/-! ### Claim theorems -/

/-- C1: the claim asserts bit-identical ReportRow sequences across repeated
runs and a stable first-seen iteration order for `affiliations`.  The code
materialises a Python `set` (hash-seed-dependent order): both `ordId` and
`ordRev` are admissible set orders (`ValidOrd`), yet on the fixed payload
`docC1` they produce different row sequences, so the pipeline's output is not
determined by the XML payload alone and no first-seen order is guaranteed. -/
theorem c1_set_order_nondeterminism :
    ValidOrd ordId ∧ ValidOrd ordRev
    ∧ (pipelineRows ordId docC1).map Row.companyAffiliations = ["A Inc; B Ltd"]
    ∧ (pipelineRows ordRev docC1).map Row.companyAffiliations = ["B Ltd; A Inc"]
    ∧ pipelineRows ordId docC1 ≠ pipelineRows ordRev docC1 :=
  ⟨ordId_valid, ordRev_valid, by decide, by decide, by decide⟩

/-- C2 (counterexample): the claim says assembly takes a caller-supplied
`keepOnlyCompanyAffiliated` and with the flag false returns all rows.  The
code's assembly loop (`mainAssemble`, identical in both entry points) takes no
such flag and drops the row of `pUniv` (no company affiliation), differing
from the keep-all behaviour the claim requires to be available. -/
theorem c2_keep_all_not_available_cex :
    mainAssemble ordId [pUniv] = []
    ∧ assembleSpec ordId false [pUniv] = [detect_non_academic_authors ordId pUniv]
    ∧ mainAssemble ordId [pUniv] ≠ assembleSpec ordId false [pUniv] :=
  ⟨by decide, rfl, by decide⟩

/-- C2 (amended): the assembly step hard-codes the filtering behaviour
(`keepOnlyCompanyAffiliated` fixed to true): every row whose joined
companyAffiliations string is empty is dropped, surviving rows keep their
original relative order (sublist of the classified rows in input order), and
every surviving row has a non-empty companyAffiliations string. -/
theorem c2_assembly_hardcodes_filter (π : List String → List String)
    (papers : List Paper) :
    mainAssemble π papers = assembleSpec π true papers
    ∧ (mainAssemble π papers).Sublist (papers.map (detect_non_academic_authors π))
    ∧ ∀ r ∈ mainAssemble π papers, ¬r.companyAffiliations = "" := by
  refine ⟨rfl, List.filter_sublist _, fun r hr => ?_⟩
  have h2 := (List.mem_filter.1 hr).2
  simp only [Bool.not_eq_true'] at h2
  intro he
  rw [he] at h2
  exact absurd h2 (by decide)

theorem c2_assembly_hardcodes_filter_witness :
    ¬(detect_non_academic_authors ordId pC4).companyAffiliations = "" :=
  (c2_assembly_hardcodes_filter ordId [pC4]).2.2
    (detect_non_academic_authors ordId pC4) (by decide)

/-- C3: an affiliation is marked as a company affiliation iff it contains one
of the seven fixed case-sensitive markers as a substring (not token-bounded);
`companyAffiliations` is exactly the filtered subsequence of the record's
affiliations in their iteration order; the two spec examples evaluate as
claimed. -/
theorem c3_keyword_substring_heuristic (π : List String → List String) (p : Paper) :
    (detect_non_academic_authors π p).companyAffiliations
        = String.intercalate "; " (p.affiliations.filter isCompanyAff)
    ∧ (p.affiliations.filter isCompanyAff).Sublist p.affiliations
    ∧ (∀ a : String, isCompanyAff a = true
        ↔ ∃ k ∈ pharma_keywords, ∃ pre suf : List Char,
            a.toList = pre ++ k.toList ++ suf)
    ∧ isCompanyAff "Acme Pharma Inc, Boston" = true
    ∧ isCompanyAff "Dept. of Biology, State University" = false :=
  ⟨rfl, List.filter_sublist _, isCompanyAff_iff, by decide, by decide⟩

/-- C4: `correspondingEmails` is the deduplicated set of regex matches
collected over every affiliation string (company-matched or not): the stored
collection is duplicate-free, its members are exactly the strings found by
the email matcher in some affiliation, every match has the shape
local-part/`@`/domain/`.`/letters-TLD with the claimed character classes, an
affiliation without `@` contributes nothing, and the spec's example matches. -/
theorem c4_email_extraction (π : List String → List String) (hπ : ValidOrd π)
    (p : Paper) :
    (detect_non_academic_authors π p).correspondingEmails
        = String.intercalate ", " (π (pySetList (p.affiliations.flatMap findEmails)))
    ∧ (π (pySetList (p.affiliations.flatMap findEmails))).Nodup
    ∧ (∀ e, e ∈ π (pySetList (p.affiliations.flatMap findEmails))
        ↔ ∃ a ∈ p.affiliations, e ∈ findEmails a)
    ∧ (∀ a : String, (∀ c ∈ a.toList, c ≠ '@') → findEmails a = [])
    ∧ (∀ a e, e ∈ findEmails a → ∃ loc pre tld : List Char,
        e.toList = loc ++ '@' :: (pre ++ '.' :: tld) ∧ loc ≠ [] ∧ pre ≠ []
        ∧ (∀ c ∈ loc, isLocalChar c = true) ∧ (∀ c ∈ pre, isDomainChar c = true)
        ∧ 2 ≤ tld.length ∧ (∀ c ∈ tld, c.isAlpha = true))
    ∧ findEmails "Acme Pharma Inc, contact: j.doe@acme-pharma.com"
        = ["j.doe@acme-pharma.com"] := by
  have hnd : (pySetList (p.affiliations.flatMap findEmails)).Nodup := pySetList_nodup _
  have hperm := hπ _ hnd
  refine ⟨rfl, hperm.symm.nodup hnd, ?_, findEmails_no_at, findEmails_shape, by decide⟩
  intro e
  rw [hperm.mem_iff, mem_pySetList]
  exact List.mem_flatMap

theorem c4_email_extraction_witness :
    (detect_non_academic_authors ordId pC4).correspondingEmails
      = "j.doe@acme-pharma.com" :=
  ((c4_email_extraction ordId ordId_valid pC4).1).trans (by decide)

/-- C5: the only failure point of extraction is the initial XML parse (before
any article-level processing): the result is an error iff the payload is
malformed; on a well-formed root every article is processed (one record per
article element, each independently), and a missing id, title, or year
element degrades the field to the empty string instead of raising. -/
theorem c5_parse_error_boundary (π : List String → List String) (x : XmlParse) :
    ((∃ e, fetch_paper_details π x = Except.error e) ↔ x = XmlParse.malformed)
    ∧ (∀ root, fetch_paper_details π (XmlParse.wellFormed root)
        = Except.ok ((findall root "PubmedArticle").map (parseArticle π)))
    ∧ (∀ art, findFirst art "PMID" = none → (parseArticle π art).pubmedID = some "")
    ∧ (∀ art, findFirst art "ArticleTitle" = none → (parseArticle π art).title = some "")
    ∧ (∀ art, findDescChild art "PubDate" "Year" = none
        → (parseArticle π art).pubDate = some "") := by
  refine ⟨?_, fun root => rfl, fun art h => ?_, fun art h => ?_, fun art h => ?_⟩
  · cases x with
    | malformed => exact ⟨fun _ => rfl, fun _ => ⟨(), rfl⟩⟩
    | wellFormed root =>
      constructor
      · rintro ⟨e, he⟩
        exact absurd he (by simp [fetch_paper_details])
      · intro h
        exact absurd h (by simp)
  · simp [parseArticle, h]
  · simp [parseArticle, h]
  · simp [parseArticle, h]

theorem c5_parse_error_boundary_witness :
    (parseArticle ordId artC5).pubmedID = some ""
    ∧ (parseArticle ordId artC5).title = some ""
    ∧ (parseArticle ordId artC5).pubDate = some "" :=
  ⟨(c5_parse_error_boundary ordId XmlParse.malformed).2.2.1 artC5 rfl,
   (c5_parse_error_boundary ordId XmlParse.malformed).2.2.2.1 artC5 rfl,
   (c5_parse_error_boundary ordId XmlParse.malformed).2.2.2.2 artC5 rfl⟩

/-- C6: for every extracted record the affiliation collection is
duplicate-free and contains no empty string, for any admissible
materialisation order of the underlying set; moreover a string belongs to the
collection exactly when some author of the article carries it as a non-empty
affiliation text — so an affiliation shared by several authors does appear,
and (being in a duplicate-free list) appears exactly once (count 1). -/
theorem c6_affiliations_invariant (π : List String → List String) (hπ : ValidOrd π)
    (art : XmlNode) :
    (parseArticle π art).affiliations.Nodup
    ∧ (∀ a ∈ (parseArticle π art).affiliations, a ≠ "")
    ∧ (∀ a, a ∈ (parseArticle π art).affiliations
        ↔ (¬a = "" ∧ ∃ au ∈ findall art "Author",
            ∃ e, findDescChild au "AffiliationInfo" "Affiliation" = some e
              ∧ e.text = some a))
    ∧ (∀ a ∈ (parseArticle π art).affiliations,
        (parseArticle π art).affiliations.count a = 1) := by
  have hinv := foldl_affInsert_inv (findall art "Author") [] List.nodup_nil (by simp)
  have hperm := hπ _ hinv.1
  rw [parseArticle_affiliations]
  have hnd : (π ((findall art "Author").foldl affInsert [])).Nodup :=
    hperm.symm.nodup hinv.1
  refine ⟨hnd, fun a ha => hinv.2 a (hperm.mem_iff.1 ha), fun a => ?_,
    fun a ha => List.count_eq_one_of_mem hnd ha⟩
  rw [hperm.mem_iff, mem_foldl_affInsert]
  simp

theorem c6_affiliations_invariant_witness :
    (parseArticle ordId artC6).affiliations = ["Acme Inc"]
    ∧ "Acme Inc" ∈ (parseArticle ordId artC6).affiliations
    ∧ (parseArticle ordId artC6).affiliations.count "Acme Inc" = 1
    ∧ (parseArticle ordId artC6).affiliations.Nodup :=
  ⟨by decide, by decide,
   (c6_affiliations_invariant ordId ordId_valid artC6).2.2.2 "Acme Inc" (by decide),
   (c6_affiliations_invariant ordId ordId_valid artC6).1⟩

/-- C7 (counterexample): the claim says an author with both name fields
present gets the joined name appended.  In `authorC7` both LastName and
ForeName children are present, yet the extracted authors list is empty,
because the LastName text is empty and Python truthiness drops it. -/
theorem c7_present_but_empty_name_cex :
    (findChild authorC7 "LastName").isSome = true
    ∧ (findChild authorC7 "ForeName").isSome = true
    ∧ findall artC7 "Author" = [authorC7]
    ∧ (parseArticle ordId artC7).authors = [] :=
  ⟨rfl, rfl, rfl, by decide⟩

/-- C7 (amended): the string joined from given and family name is appended,
in encounter order, exactly for those authors whose ForeName and LastName
fields are both present with non-empty text; the affiliation contribution of
an author is computed independently of the name fields (an author omitted
from `authors` still contributes its affiliation). -/
theorem c7_authors_from_present_nonempty_names (π : List String → List String)
    (art : XmlNode) :
    (parseArticle π art).authors = (findall art "Author").filterMap authorFullName
    ∧ (parseArticle π art).affiliations = π ((findall art "Author").foldl affInsert [])
    ∧ (∀ au fn, authorFullName au = some fn
        ↔ ∃ f l, findtext au "ForeName" = some f ∧ findtext au "LastName" = some l
            ∧ ¬f = "" ∧ ¬l = "" ∧ fn = f ++ " " ++ l) := by
  refine ⟨parseArticle_authors π art, parseArticle_affiliations π art, fun au fn => ?_⟩
  cases hf : findtext au "ForeName" with
  | none => simp [authorFullName, hf]
  | some f =>
    cases hl : findtext au "LastName" with
    | none => simp [authorFullName, hf, hl]
    | some l =>
      by_cases hfe : f = ""
      · simp [authorFullName, hf, hl, hfe]
      · by_cases hle : l = ""
        · simp [authorFullName, hf, hl, hfe, hle]
        · simp only [authorFullName, hf, hl, hfe, hle, or_self, false_or,
            if_false, or_false, if_neg, Option.some.injEq, not_false_iff]
          constructor
          · rintro rfl
            exact ⟨f, l, rfl, rfl, hfe, hle, rfl⟩
          · rintro ⟨f2, l2, hf2, hl2, _, _, rfl⟩
            rw [hf2, hl2]

/-- C8: classification is total — it returns a row for every PaperRecord,
with the placeholder always set — and on an empty affiliation set both the
company-affiliation and email fields are empty strings. -/
theorem c8_classification_total (π : List String → List String) (hπ : ValidOrd π)
    (p : Paper) :
    (detect_non_academic_authors π p).nonAcademicAuthors = "N/A"
    ∧ (p.affiliations = [] →
        (detect_non_academic_authors π p).companyAffiliations = ""
        ∧ (detect_non_academic_authors π p).correspondingEmails = "") := by
  refine ⟨rfl, fun h => ⟨?_, ?_⟩⟩
  · show String.intercalate "; " (p.affiliations.filter isCompanyAff) = ""
    rw [h]
    rfl
  · show String.intercalate ", "
        (π (pySetList (p.affiliations.flatMap findEmails))) = ""
    rw [h]
    show String.intercalate ", " (π (pySetList [])) = ""
    rw [show pySetList [] = [] from rfl, validOrd_nil hπ]
    rfl

theorem c8_classification_total_witness :
    (detect_non_academic_authors ordId pEmpty).nonAcademicAuthors = "N/A"
    ∧ (detect_non_academic_authors ordId pEmpty).companyAffiliations = ""
    ∧ (detect_non_academic_authors ordId pEmpty).correspondingEmails = "" :=
  ⟨(c8_classification_total ordId ordId_valid pEmpty).1,
   ((c8_classification_total ordId ordId_valid pEmpty).2 rfl).1,
   ((c8_classification_total ordId ordId_valid pEmpty).2 rfl).2⟩

/-- C9: each produced row carries the fixed placeholder "N/A" for
non-academic authors, and copies id, title and publication year unchanged
from the source record. -/
theorem c9_row_copies_and_placeholder (π : List String → List String) (p : Paper) :
    (detect_non_academic_authors π p).pubmedID = p.pubmedID
    ∧ (detect_non_academic_authors π p).title = p.title
    ∧ (detect_non_academic_authors π p).pubDate = p.pubDate
    ∧ (detect_non_academic_authors π p).nonAcademicAuthors = "N/A" :=
  ⟨rfl, rfl, rfl, rfl⟩

/-- C10: when the id, title, or year element is found, the stored field is
the element's text — hence Python `None` (here `none`) for a present but
empty element; the empty-string default arises exactly when the element is
absent. -/
theorem c10_none_for_empty_elements (π : List String → List String)
    (art : XmlNode) (e : XmlNode) :
    (findFirst art "PMID" = some e → (parseArticle π art).pubmedID = e.text)
    ∧ (findFirst art "ArticleTitle" = some e → (parseArticle π art).title = e.text)
    ∧ (findDescChild art "PubDate" "Year" = some e
        → (parseArticle π art).pubDate = e.text)
    ∧ (findFirst art "PMID" = none → (parseArticle π art).pubmedID = some "")
    ∧ (findFirst art "ArticleTitle" = none → (parseArticle π art).title = some "")
    ∧ (findDescChild art "PubDate" "Year" = none
        → (parseArticle π art).pubDate = some "") := by
  refine ⟨fun h => ?_, fun h => ?_, fun h => ?_, fun h => ?_, fun h => ?_, fun h => ?_⟩
    <;> simp [parseArticle, h]

theorem c10_none_for_empty_elements_witness :
    (parseArticle ordId artC10).pubmedID = none
    ∧ (parseArticle ordId artC10).title = none
    ∧ (parseArticle ordId artC10).pubDate = some "" :=
  ⟨(c10_none_for_empty_elements ordId artC10 pmidC10).1 rfl,
   (c10_none_for_empty_elements ordId artC10 titleC10).2.1 rfl,
   (c10_none_for_empty_elements ordId artC10 pmidC10).2.2.2.2.2 rfl⟩
